import Mathlib

/-!
Verification development for the pyEMA LSCF/LSFD modal-analysis engine
(`pyEMA/pyEMA.py`).  The numerical code operates on IEEE double
floating-point arrays; the embedding models scalars by an arbitrary linear
ordered field (instantiated at `ℚ` for executable checks and at `ℝ`/`ℂ`
where the source manipulates complex data), with exact arithmetic.  Places
where IEEE semantics differ from field semantics (division by zero inside
comparisons) are modelled explicitly and noted at the definition.
-/

namespace PyEMA

attribute [local semireducible] Rat.add Rat.sub Rat.mul Rat.inv Rat.ofScientific

/-- Decidable equality on `Except`, so that concrete constructor runs can be
checked by `decide`. -/
instance {ε γ : Type} [DecidableEq ε] [DecidableEq γ] : DecidableEq (Except ε γ)
  | Except.error a, Except.error b =>
    if h : a = b then Decidable.isTrue (by rw [h])
    else Decidable.isFalse (fun hh => h (Except.error.inj hh))
  | Except.error _, Except.ok _ => Decidable.isFalse (fun hh => Except.noConfusion hh)
  | Except.ok _, Except.error _ => Decidable.isFalse (fun hh => Except.noConfusion hh)
  | Except.ok a, Except.ok b =>
    if h : a = b then Decidable.isTrue (by rw [h])
    else Decidable.isFalse (fun hh => h (Except.ok.inj hh))

/-- Index semantics of `np.argmin(np.abs(xs − t))`: the index of the first element of `xs` at
minimal absolute distance from `t`.  numpy scans left to right and keeps the
current index unless a strictly smaller value appears, so ties resolve to the
earliest index.  numpy raises on an empty array; callers of this definition
guard for emptiness, and the `[]` case value `0` is never relied upon. -/
def argminAbs {α : Type} [LinearOrderedField α] (t : α) : List α → ℕ
  | [] => 0
  | x :: xs =>
    let r := argminAbs t xs
    if xs = [] then 0
    else if |xs.getD r 0 - t| < |x - t| then r + 1 else 0

/-- State built by `lscf.__init__` (the `pyfrf=False` path): the bounds, the
truncated FRF matrix and frequency vector, the polynomial order and the
sampling time.  The derived field `omega = 2·π·freq` is not stored; it is
recomputed where used.  FRF entries are an arbitrary type `β` because the
constructor only slices them. -/
structure LscfState (α β : Type) where
  lower : α
  upper : α
  frf : List (List β)
  freq : List α
  pol_order_high : ℤ
  sampling_time : α
deriving DecidableEq

/-- Model of `lscf.__init__` for the `pyfrf=False` path with `frf` and `freq` supplied
(`pyEMA.py` lines 98-149).  Python exceptions are modelled by `Except.error`.
The checks appear in source order: the `lower` check, the `upper < lower`
check, then the frequency-axis truncation (where `np.argmin` raises on an
empty `freq`), then the `pol_order_high` check, and finally the sampling
time, where `self.freq[-1]` raises when the truncated vector is empty. -/
def lscf_init {α β : Type} [LinearOrderedField α] (frf : List (List β))
    (freq : List α) (dt : Option α) (lower upper : α) (pol_order_high : ℤ) :
    Except String (LscfState α β) :=
  if lower < 0 then Except.error ("lower must be positive or equal to zero")
  else if upper < lower then Except.error ("upper must be greater than lower")
  else
    match freq with
    | [] => Except.error ("attempt to get argmin of an empty sequence")
    | _ :: _ =>
      let cutoff_ind := argminAbs upper freq
      let frf2 := frf.map (List.take cutoff_ind)
      let freq2 := freq.take cutoff_ind
      if pol_order_high ≤ 0 then Except.error ("pol_order_high must be positive")
      else
        match dt with
        | some d => Except.ok ⟨lower, upper, frf2, freq2, pol_order_high, d⟩
        | none =>
          match freq2.getLast? with
          | none => Except.error ("index -1 is out of bounds")
          | some fl =>
            Except.ok ⟨lower, upper, frf2, freq2, pol_order_high, 1 / (2 * fl)⟩

/-- The per-index survival test of `redundant_values` (`pyEMA.py` lines
668-692): index `j` is kept exactly when no later index `i > j` has
`|omega[i] - omega[j]| < prec` (the column sum `test[j]` of the strict
lower-triangular closeness matrix is zero). -/
def survives {α : Type} [LinearOrderedField α] (omega : List α) (prec : α)
    (j : ℕ) : Bool :=
  (List.range omega.length).all fun i =>
    !(decide (j < i) && decide (|omega.getD i 0 - omega.getD j 0| < prec))

/-- Model of `redundant_values(omega, xi, prec)`: suppress entries of `omega` (and the
matching entries of `xi`) that are within `prec` of a later entry. -/
def redundant_values {α : Type} [LinearOrderedField α] (omega xi : List α)
    (prec : α) : List α × List α :=
  let idx := (List.range omega.length).filter (fun j => survives omega prec j)
  (idx.map (fun j => omega.getD j 0), idx.map (fun j => xi.getD j 0))

/-- The relative-tolerance test of the stabilisation classifier:
`np.abs((x - t) / t) < err`.  The source computes this on IEEE doubles with
`RuntimeWarning` suppressed, so when the stored entry `t` is `0` the quotient
is `±inf` (or `nan` for `x = 0`) and the comparison is false; the `t = 0`
branch reproduces that behaviour, which differs from Lean field semantics
where `x / 0 = 0`. -/
def relMatchB {α : Type} [LinearOrderedField α] (x t err : α) : Bool :=
  if t = 0 then false else decide (|(x - t) / t| < err)

/-- The four output tables of `stabilisation`, each conceptually a
`(2·nmax) × nmax` array indexed (row, column); entries outside those bounds
keep the value `0` and are never written.  `test_fn`/`test_xi` hold the
nonnegative match counts (`int` in the source). -/
structure StabState (α : Type) where
  fn_temp : ℕ → ℕ → α
  xi_temp : ℕ → ℕ → α
  test_fn : ℕ → ℕ → ℕ
  test_xi : ℕ → ℕ → ℕ

/-- Initial `np.zeros` state of the four stabilisation tables. -/
def initStab {α : Type} [LinearOrderedField α] : StabState α :=
  ⟨fun _ _ => 0, fun _ _ => 0, fun _ _ => 0, fun _ _ => 0⟩

/-- One iteration of the `stabilisation` loop (`pyEMA.py` lines 719-747) at
loop index `n`, for input data `d` already converted to (frequency, damping)
pairs.  The body first deduplicates with `redundant_values(…, 1e-3)`.  At
`n = 1` the first-step branch writes the values into column `0` and leaves
the test tables alone.  Every other `n` (including `n = 0`) takes the general
branch: numpy resolves the Python indices `n-1` and `n-2` modulo the column
count `nmax`, so the write column is `(n + nmax - 1) % nmax` and the
comparison column `(n + nmax - 2) % nmax` (for `n = 0` these wrap to the last
and second-to-last columns; `nmax ≥ 2` is assumed, since for `nmax = 1` the
source raises an out-of-bounds error).  The per-row loop writes the value
into the write column and stores in the test tables the number of matches
against the comparison column among the first `2·n` rows.  The write column
differs from the comparison column, so the sequential per-row writes of the
source equal this batch update. -/
def stabStep {α : Type} [LinearOrderedField α] (nmax : ℕ) (err_fn err_xi : α)
    (s : StabState α) (n : ℕ) (d : List (α × α)) : StabState α :=
  let p := redundant_values (d.map Prod.fst) (d.map Prod.snd) (1 / 1000)
  let fn := p.1
  let xi := p.2
  if n = 1 then
    { s with
      fn_temp := fun r c => if c = 0 ∧ r < fn.length then fn.getD r 0 else s.fn_temp r c,
      xi_temp := fun r c => if c = 0 ∧ r < fn.length then xi.getD r 0 else s.xi_temp r c }
  else
    let wc := (n + nmax - 1) % nmax
    let rc := (n + nmax - 2) % nmax
    { fn_temp := fun r c => if c = wc ∧ r < fn.length then fn.getD r 0 else s.fn_temp r c,
      xi_temp := fun r c => if c = wc ∧ r < fn.length then xi.getD r 0 else s.xi_temp r c,
      test_fn := fun r c => if c = wc ∧ r < fn.length then
          (List.range (2 * n)).countP (fun j => relMatchB (fn.getD r 0) (s.fn_temp j rc) err_fn)
        else s.test_fn r c,
      test_xi := fun r c => if c = wc ∧ r < fn.length then
          (List.range (2 * n)).countP (fun j => relMatchB (xi.getD r 0) (s.xi_temp j rc) err_xi)
        else s.test_xi r c }

/-- The `stabilisation` loop over `n = 0, …, nmax-1`, acting on per-order
(frequency, damping) data.  The complex-to-(frequency, damping) conversion
performed at the top of each source iteration is applied before this loop in
`stabilisation` below; it is the only step that needs real arithmetic, and it
touches each order independently, so the split is exact. -/
def stabilisationCore {α : Type} [LinearOrderedField α]
    (data : List (List (α × α))) (nmax : ℕ) (err_fn err_xi : α) : StabState α :=
  (List.range nmax).foldl
    (fun s n => stabStep nmax err_fn err_xi s n (data.getD n [])) initStab

/-- The column written by `stabStep` at loop index `n`: column `0` in the
dedicated `n = 1` branch, otherwise the numpy-resolved index `n - 1`. -/
def wcol (nmax n : ℕ) : ℕ :=
  if n = 1 then 0 else (n + nmax - 1) % nmax

/-- Model of `complex_freq_to_freq_and_damp` (`pyEMA.py` lines 652-665): a complex
pole `sr` is sent to the natural frequency `sign(Im sr)·|sr| / (2π)` and the
damping ratio `-Re sr / (sign(Im sr)·|sr|)` (the damping division uses the
frequency before the `2π` scaling).  For a pole with `Im sr = 0` the source
divides by zero in doubles (yielding `±inf`/`nan`); that case is outside
every claim and the Lean convention `x / 0 = 0` applies. -/
noncomputable def complex_freq_to_freq_and_damp (sr : ℂ) : ℝ × ℝ :=
  (Real.sign sr.im * Complex.abs sr / (2 * Real.pi),
   -sr.re / (Real.sign sr.im * Complex.abs sr))

/-- Model of `stabilisation(sr, nmax, err_fn, err_xi)`: convert each order's complex
poles to (frequency, damping) pairs, then run the classification loop. -/
noncomputable def stabilisation (sr : List (List ℂ)) (nmax : ℕ)
    (err_fn err_xi : ℝ) : StabState ℝ :=
  stabilisationCore (sr.map (List.map complex_freq_to_freq_and_damp)) nmax err_fn err_xi

/-- The pole-extraction step of `lscf.get_poles` at one polynomial order
(`pyEMA.py` lines 223-237): the Z-domain roots `sr` are mapped to
continuous-time poles by `-ln(root) / sampling_time` (`np.log` is the
principal complex logarithm), and each pole is decomposed into its
(frequency, damping) pair. -/
noncomputable def get_poles_step (sr : List ℂ) (sampling_time : ℝ) :
    List ℂ × List (ℝ × ℝ) :=
  let poles := sr.map (fun z => -Complex.log z / (sampling_time : ℂ))
  (poles, poles.map complex_freq_to_freq_and_damp)

/-- Dynamic Python values that can reach the `FRF_ind` parameter of
`lscf.lsfd`: `None`, a string, an `int`, a `bool` (a subtype of `int` in
Python, so it passes `isinstance(FRF_ind, int)` with `True = 1`,
`False = 0`), or some other value such as a float. -/
inductive PyVal where
  | none : PyVal
  | str : String → PyVal
  | int : ℤ → PyVal
  | bool : Bool → PyVal
  | float : ℝ → PyVal

/-- The three return shapes of `lscf.lsfd`: the modal-constant matrix alone
(`FRF_ind=None`), the full reconstructed FRF matrix with the constants
(`FRF_ind='all'`), or one reconstructed row with the constants
(`FRF_ind` an integer). -/
inductive LsfdOut where
  | A_only : List (List ℂ) → LsfdOut
  | pair_all : List (List ℂ) → List (List ℂ) → LsfdOut
  | pair_one : List ℂ → List (List ℂ) → LsfdOut

/-- Python/numpy index resolution on an axis of length `len`: a negative
index counts from the end.  (An index that is still out of bounds raises in
Python; the claims stay within bounds.) -/
def pyIndex (len : ℕ) (i : ℤ) : ℕ :=
  (if i < 0 then (len : ℤ) + i else i).toNat

/-- The `ome[i] == 0` guard of `lsfd` (`pyEMA.py` lines 519-523): an exactly
zero angular frequency is replaced by `0.01` before the lower-residual
columns divide by `_ome**2`. -/
noncomputable def guardOmega (w : ℝ) : ℝ :=
  if w = 0 then 1 / 100 else w

/-- Entry `(row at angular frequency w, column c)` of the `lsfd` design
matrix `TA` (`pyEMA.py` lines 503-536), with `M2` selected poles:
columns `0 … M2-1` hold the real parts of the two-pole partial-fraction
bases, columns `M2 … 2·M2-1` their imaginary parts (or `0` when
`complex_mode` is off), column `2·M2` holds `-Re(1/_ome²)` and column
`2·M2+1` holds `-Im(1/_ome²)` (zero, since `_ome` is real) when `lower_r`
is on, and the last two columns hold `Re(1)` and `Im(1)` (one and zero)
when `upper_r` is on; switched-off residual columns are zero. -/
noncomputable def TA_entry (poles : List ℂ) (complex_mode lower_r upper_r : Bool)
    (w : ℝ) (c : ℕ) : ℝ :=
  let M2 := poles.length
  if c < M2 then
    (1 / (Complex.I * w - poles.getD c 0)
      + 1 / (Complex.I * w - (starRingEnd ℂ) (poles.getD c 0))).re
  else if c < 2 * M2 then
    if complex_mode then
      (1 / (Complex.I * w - poles.getD (c - M2) 0)
        - 1 / (Complex.I * w - (starRingEnd ℂ) (poles.getD (c - M2) 0))).im
    else 0
  else if c = 2 * M2 then
    if lower_r then -(1 / guardOmega w ^ 2) else 0
  else if c = 2 * M2 + 1 then
    0
  else if c = 2 * M2 + 2 then
    if upper_r then 1 else 0
  else
    0

/-- Transpose of a rectangular list-of-rows matrix. -/
def transposeLM (m : List (List ℝ)) : List (List ℝ) :=
  (List.range (m.headD []).length).map (fun j => m.map (fun row => row.getD j 0))

/-- Real dot product of two equally long rows. -/
def dotR (x y : List ℝ) : ℝ := (List.zipWith (· * ·) x y).sum

/-- Real matrix product on list-of-rows matrices. -/
def matMulR (a b : List (List ℝ)) : List (List ℝ) :=
  a.map (fun row => (transposeLM b).map (fun col => dotR row col))

/-- A real matrix applied to a complex vector, as in `AT @ _FRF_mat[v, :]`. -/
noncomputable def matVecRC (a : List (List ℝ)) (v : List ℂ) : List ℂ :=
  a.map (fun row => (List.zipWith (fun (x : ℝ) (z : ℂ) => (x : ℂ) * z) row v).sum)

/-- Modelled from the spec: `np.linalg.pinv` on the square Gram matrix
`TA.T @ TA` (an external numpy routine, "the normal-equations
pseudo-inverse").  It is modelled by the adjugate-based matrix inverse,
which agrees with the Moore-Penrose pseudo-inverse whenever the Gram matrix
is invertible; no claim depends on the entry values of this matrix, only on
its square shape, which is preserved exactly. -/
noncomputable def pinvList (m : List (List ℝ)) : List (List ℝ) :=
  let n := m.length
  let M : Matrix (Fin n) (Fin n) ℝ := fun i j => (m.getD i []).getD j 0
  (List.finRange n).map (fun i => (List.finRange n).map (fun j => M⁻¹ i j))

/-- Model of `lscf.FRF_reconstruct(FRF_ind)` (`pyEMA.py` lines 626-642): over the
stored angular-frequency vector, sum for each of the `A.shape[1]` modal
constants the partial fraction plus its conjugate pair, then add the
lower-residual term `-LR/ω²` and the upper residual `UR`. -/
noncomputable def FRF_reconstruct (A : List (List ℂ)) (poles : List ℂ)
    (LR UR : List ℂ) (omega : List ℝ) (i : ℕ) : List ℂ :=
  omega.map (fun w : ℝ =>
    ((List.range (A.headD []).length).map (fun n =>
        (A.getD i []).getD n 0 / (Complex.I * w - poles.getD n 0)
          + (starRingEnd ℂ) ((A.getD i []).getD n 0)
            / (Complex.I * w - (starRingEnd ℂ) (poles.getD n 0)))).sum
      + (-(LR.getD i 0) / (w : ℂ) ^ 2 + UR.getD i 0))

/-- Model of `lscf.lsfd` (`pyEMA.py` lines 461-568) over an explicit instance state:
`frf`/`freq` are the truncated FRF matrix and frequency vector,
`lower`/`upper` the stored bounds, `all_poles`/`pole_ind` the per-order pole
sets and the selected (order, index) pairs.  The selected poles are
gathered, the reconstruction band is cut with `np.argmin`, the real design
matrix `TA` is built, `A_LSFD = pinv(TA^T TA) TA^T @ FRF-row` is assembled
per output row (numpy silently keeps only the real part when storing the
complex product into the real `A_LSFD` array, with the `ComplexWarning`
suppressed), and the complex constants `A`, `LR`, `UR` are recovered from the
real blocks.  Finally `FRF_ind` dispatches: `None` returns `A` alone; the
string `'all'` returns all reconstructed rows with `A`; an `int` — and a
`bool`, which passes `isinstance(FRF_ind, int)` — returns one reconstructed
row with `A`; anything else raises. -/
noncomputable def lsfd (frf : List (List ℂ)) (freq : List ℝ) (lower upper : ℝ)
    (all_poles : List (List ℂ)) (pole_ind : List (ℕ × ℕ)) (FRF_ind : PyVal)
    (f_lower f_upper : Option ℝ) (complex_mode upper_r lower_r : Bool) :
    Except String LsfdOut :=
  let poles := pole_ind.map (fun q => (all_poles.getD q.1 []).getD q.2 0)
  let fl := f_lower.getD lower
  let fu := f_upper.getD upper
  let lower_ind := argminAbs fl freq
  let upper_ind := argminAbs fu freq
  let _FRF_mat := frf.map (fun row => (row.take upper_ind).drop lower_ind)
  let _freq := (freq.take upper_ind).drop lower_ind
  let ome := _freq.map (fun f => 2 * Real.pi * f)
  let M2 := poles.length
  let TA := ome.map (fun w =>
    (List.range (2 * M2 + 4)).map (fun c => TA_entry poles complex_mode lower_r upper_r w c))
  let AT := matMulR (pinvList (matMulR (transposeLM TA) TA)) (transposeLM TA)
  let A_LSFD := _FRF_mat.map (fun row => (matVecRC AT row).map Complex.re)
  let A : List (List ℂ) := A_LSFD.map (fun r =>
    (List.range M2).map (fun n =>
      -(((r.getD n 0 : ℝ) : ℂ) + Complex.I * ((r.getD (M2 + n) 0 : ℝ) : ℂ))))
  let LR : List ℂ := A_LSFD.map (fun r =>
    ((r.getD (2 * M2) 0 : ℝ) : ℂ) + Complex.I * ((r.getD (2 * M2 + 1) 0 : ℝ) : ℂ))
  let UR : List ℂ := A_LSFD.map (fun r =>
    ((r.getD (2 * M2 + 2) 0 : ℝ) : ℂ) + Complex.I * ((r.getD (2 * M2 + 3) 0 : ℝ) : ℂ))
  let omega := freq.map (fun f => 2 * Real.pi * f)
  match FRF_ind with
  | PyVal.none => Except.ok (LsfdOut.A_only A)
  | PyVal.str s =>
    if s = "all" then
      Except.ok (LsfdOut.pair_all
        ((List.range frf.length).map (fun i => FRF_reconstruct A poles LR UR omega i)) A)
    else Except.error ("FRF_ind must be None, \"all\" or int")
  | PyVal.int i =>
    Except.ok (LsfdOut.pair_one (FRF_reconstruct A poles LR UR omega (pyIndex frf.length i)) A)
  | PyVal.bool b =>
    Except.ok (LsfdOut.pair_one
      (FRF_reconstruct A poles LR UR omega (pyIndex frf.length (if b then 1 else 0))) A)
  | PyVal.float _ => Except.error ("FRF_ind must be None, \"all\" or int")

/-- Shape of the modal-constant matrix of an `FRF_ind=None` result:
(number of rows, number of columns of the first row). -/
def constantsShapeOf : Except String LsfdOut → Option (ℕ × ℕ)
  | Except.ok (LsfdOut.A_only A) => some (A.length, (A.headD []).length)
  | _ => Option.none

/-- The surviving (deduplicated) frequency and damping lists that iteration
`n` of the `stabilisation` loop works with: `redundant_values` applied with
the fixed precision `1e-3` to the order-`n` input data. -/
def dedupAt {α : Type} [LinearOrderedField α] (data : List (List (α × α)))
    (n : ℕ) : List α × List α :=
  redundant_values ((data.getD n []).map Prod.fst) ((data.getD n []).map Prod.snd)
    (1 / 1000)

/-! ### Helper lemmas -/

theorem argminAbs_lt_length {α : Type} [LinearOrderedField α] (t : α) :
    ∀ (l : List α), l ≠ [] → argminAbs t l < l.length := by
  intro l
  induction l with
  | nil => intro h; exact absurd rfl h
  | cons x xs ih =>
    intro _
    simp only [argminAbs]
    cases xs with
    | nil => simp
    | cons y rest =>
      rw [if_neg (by simp)]
      split
      · have := ih (by simp)
        simpa [Nat.succ_lt_succ_iff] using this
      · simp

theorem argminAbs_min {α : Type} [LinearOrderedField α] (t : α) :
    ∀ (l : List α) (k : ℕ), k < l.length →
      |l.getD (argminAbs t l) 0 - t| ≤ |l.getD k 0 - t| := by
  intro l
  induction l with
  | nil => intro k hk; simp at hk
  | cons x xs ih =>
    intro k hk
    simp only [argminAbs]
    cases xs with
    | nil =>
      rw [if_pos rfl]
      simp only [List.length_cons, List.length_nil] at hk
      have hk0 : k = 0 := by omega
      subst hk0
      simp
    | cons y rest =>
      rw [if_neg (by simp)]
      split
      · rename_i hlt
        rw [List.getD_cons_succ]
        cases k with
        | zero => exact le_of_lt (by simpa using hlt)
        | succ k' =>
          rw [List.getD_cons_succ]
          exact ih k' (by simpa [Nat.succ_lt_succ_iff] using hk)
      · rename_i hge
        rw [List.getD_cons_zero]
        cases k with
        | zero => simp
        | succ k' =>
          rw [List.getD_cons_succ]
          have h1 : |(y :: rest).getD (argminAbs t (y :: rest)) 0 - t| ≤
              |(y :: rest).getD k' 0 - t| :=
            ih k' (by simpa [Nat.succ_lt_succ_iff] using hk)
          have h2 : |x - t| ≤ |(y :: rest).getD (argminAbs t (y :: rest)) 0 - t| :=
            not_lt.mp hge
          exact h2.trans h1

theorem map_getD_range {α : Type} (d : α) :
    ∀ (l : List α), (List.range l.length).map (fun j => l.getD j d) = l := by
  intro l
  induction l with
  | nil => simp
  | cons x xs ih =>
    rw [List.length_cons, List.range_succ_eq_map, List.map_cons, List.map_map]
    simp only [List.getD_cons_zero, Function.comp, Nat.succ_eq_add_one,
      List.getD_cons_succ]
    rw [List.cons.injEq]
    exact ⟨rfl, ih⟩

/-! ### C6: round trip of the pole-to-(frequency, damping) conversion -/

/-- C6: for any complex pole `p = a+bi` with `b ≠ 0` built by the inverse
relation from a synthetic (fr, xi) pair — `fr_unscaled = sign(b)·|p|`,
`a = -xi·fr_unscaled`, `fr = fr_unscaled/(2π)` — the function
`complex_freq_to_freq_and_damp` recovers exactly that (fr, xi) pair. -/
theorem c6_roundtrip (p : ℂ) (fr xi : ℝ) (hb : p.im ≠ 0)
    (hre : p.re = -xi * (Real.sign p.im * Complex.abs p))
    (hfr : fr = Real.sign p.im * Complex.abs p / (2 * Real.pi)) :
    complex_freq_to_freq_and_damp p = (fr, xi) := by
  have hp : p ≠ 0 := fun h => hb (by simp [h])
  have habs : Complex.abs p ≠ 0 := Complex.abs.ne_zero hp
  have hsign : Real.sign p.im ≠ 0 := fun h => hb (Real.sign_eq_zero_iff.mp h)
  have hfu : Real.sign p.im * Complex.abs p ≠ 0 := mul_ne_zero hsign habs
  simp only [complex_freq_to_freq_and_damp, Prod.mk.injEq]
  constructor
  · exact hfr.symm
  · rw [hre]
    field_simp

/-- Witness for C6 at the concrete pole `p = i`. -/
theorem c6_witness :
    Complex.I.im ≠ 0 ∧
      complex_freq_to_freq_and_damp Complex.I = (1 / (2 * Real.pi), 0) := by
  refine ⟨by simp, ?_⟩
  exact c6_roundtrip Complex.I (1 / (2 * Real.pi)) 0 (by simp) (by simp)
    (by simp [Complex.abs_I])

/-! ### C8: the zero-frequency guard in the lsfd design matrix -/

/-- C8: the design-matrix construction substitutes `0.01` for an exactly
zero angular frequency, the guarded value is never zero (so the
lower-residual division `1/_ome²` never divides by zero), and the
lower-residual column `2·M2` is computed from the guarded value. -/
theorem c8_guard (poles : List ℂ) (cm ur : Bool) (w : ℝ) :
    guardOmega w ≠ 0 ∧ (w = 0 → guardOmega w = 1 / 100) ∧
      TA_entry poles cm true ur w (2 * poles.length) = -(1 / guardOmega w ^ 2) := by
  refine ⟨?_, ?_, ?_⟩
  · unfold guardOmega
    split
    · norm_num
    · assumption
  · intro h
    simp [guardOmega, h]
  · unfold TA_entry
    rw [if_neg (by omega), if_neg (by omega), if_pos rfl, if_pos rfl]

/-- Witness for C8 at `w = 0` with an empty pole list. -/
theorem c8_witness :
    guardOmega 0 = 1 / 100 ∧
      TA_entry [] true true true 0 0 = -(1 / guardOmega 0 ^ 2) := by
  obtain ⟨-, h2, h3⟩ := c8_guard [] true true 0
  exact ⟨h2 rfl, by simpa using h3⟩

/-! ### C7: sampling time and Z-domain-to-continuous pole map -/

/-- C7: when no `dt` is supplied, a successful construction stores
`sampling_time = 1/(2·(last element of the truncated frequency vector))`,
and the polynomial-solver step maps every Z-domain root `z` to the
continuous-time pole `-ln(z)/sampling_time`. -/
theorem c7_sampling_time_and_pole_map {α β : Type} [LinearOrderedField α]
    (frf : List (List β)) (freq : List α) (lower upper : α) (p : ℤ)
    (s : LscfState α β)
    (h : lscf_init frf freq Option.none lower upper p = Except.ok s)
    (sr : List ℂ) (st : ℝ) (i : ℕ) (hi : i < sr.length) :
    s.sampling_time = 1 / (2 * s.freq.getLastD 0) ∧
      (get_poles_step sr st).1.getD i 0 = -Complex.log (sr.getD i 0) / (st : ℂ) := by
  constructor
  · unfold lscf_init at h
    split at h
    · exact Except.noConfusion h
    split at h
    · exact Except.noConfusion h
    split at h
    · exact Except.noConfusion h
    rename_i f0 rest
    simp only [] at h
    split at h
    · exact Except.noConfusion h
    split at h
    · exact Except.noConfusion h
    rename_i fl hl
    injection h with h'
    subst h'
    simp [List.getLastD_eq_getLast?, hl]
  · simp only [get_poles_step]
    have hlen : i < (sr.map (fun z => -Complex.log z / (st : ℂ))).length := by
      simpa using hi
    rw [List.getD_eq_getElem _ _ hlen, List.getElem_map, List.getD_eq_getElem _ _ hi]

/-- Witness for C7: a concrete successful construction over `ℚ` and the pole
map evaluated at the concrete root list `[i]`. -/
theorem c7_witness :
    lscf_init (β := ℤ) [[1, 2, 3]] ([1, 2, 3] : List ℚ) Option.none 0 (5/2) 2 =
        Except.ok ⟨0, 5/2, [[1]], [1], 2, 1/2⟩ ∧
      ((⟨0, 5/2, [[1]], [1], 2, 1/2⟩ : LscfState ℚ ℤ).sampling_time =
          1 / (2 * ((⟨0, 5/2, [[1]], [1], 2, 1/2⟩ : LscfState ℚ ℤ).freq.getLastD 0)) ∧
        (get_poles_step [Complex.I] 2).1.getD 0 0 =
          -Complex.log ([Complex.I].getD 0 0) / ((2 : ℝ) : ℂ)) := by
  have h : lscf_init (β := ℤ) [[1, 2, 3]] ([1, 2, 3] : List ℚ) Option.none 0 (5/2) 2 =
      Except.ok ⟨0, 5/2, [[1]], [1], 2, 1/2⟩ := by decide
  exact ⟨h, c7_sampling_time_and_pole_map _ _ _ _ _ _ h [Complex.I] 2 0 (by decide)⟩

/-! ### C2: constructor validation (corrected) -/

/-- Counterexample to C2 as stated: with `lower = upper = 5` (so `upper` is
not strictly greater than `lower`) and an FRF row of length 1 against a
frequency vector of length 2 (a shape mismatch), construction succeeds
instead of raising: the source only rejects `upper < lower` and never
compares the frf and freq shapes. -/
theorem c2_counterexample :
    (lscf_init (β := ℤ) [[10]] ([1, 2] : List ℚ) Option.none 5 5 10).isOk = true := by
  decide

/-- C2 as amended: construction fails when `lower < 0`; when (with `lower`
valid) `upper < lower`; and when (with consistent bounds and a nonempty
frequency vector) `pol_order_high ≤ 0`.  The bound checks run before the
truncation; the order check runs after it.  `upper = lower` is accepted and
the frf/freq shapes are never compared. -/
theorem c2_validation {α β : Type} [LinearOrderedField α]
    (frf : List (List β)) (freq : List α) (dt : Option α) (lower upper : α)
    (p : ℤ) :
    (lower < 0 → (lscf_init frf freq dt lower upper p).isOk = false) ∧
    (0 ≤ lower → upper < lower → (lscf_init frf freq dt lower upper p).isOk = false) ∧
    (0 ≤ lower → lower ≤ upper → freq ≠ [] → p ≤ 0 →
      (lscf_init frf freq dt lower upper p).isOk = false) := by
  refine ⟨?_, ?_, ?_⟩
  · intro h1
    unfold lscf_init
    rw [if_pos h1]
    rfl
  · intro h0 h2
    unfold lscf_init
    rw [if_neg (not_lt.mpr h0), if_pos h2]
    rfl
  · intro h0 h1 hne h3
    unfold lscf_init
    rw [if_neg (not_lt.mpr h0), if_neg (not_lt.mpr h1)]
    cases freq with
    | nil => exact absurd rfl hne
    | cons f0 rest =>
      simp only []
      rw [if_pos h3]
      rfl

/-- Witness for the amended C2: a negative `lower`, an inverted pair of
bounds, and a non-positive polynomial order are each rejected. -/
theorem c2_witness :
    ((-1 : ℚ) < 0 ∧
        (lscf_init (β := ℤ) [[1]] [1] Option.none (-1 : ℚ) 1 1).isOk = false) ∧
      ((lscf_init (β := ℤ) [[1]] [1] Option.none (3 : ℚ) 2 1).isOk = false ∧
        (lscf_init (β := ℤ) [[1]] [1] Option.none (0 : ℚ) 2 0).isOk = false) := by
  refine ⟨⟨by norm_num, ?_⟩, ?_, ?_⟩
  · exact (c2_validation [[1]] [1] Option.none (-1) 1 1).1 (by norm_num)
  · exact (c2_validation [[1]] [1] Option.none 3 2 1).2.1 (by norm_num) (by norm_num)
  · exact (c2_validation [[1]] [1] Option.none 0 2 0).2.2 (by norm_num) (by norm_num)
      (by simp) (by norm_num)

/-! ### C4: truncation invariants -/

/-- C4: for valid constructor inputs with `upper > lower ≥ 0` and a strictly
ascending frequency vector whose length matches every FRF row, a successful
construction leaves a truncated frequency vector whose last element (when the
vector is nonempty) is at most `upper`, and whose length equals the column
count of every truncated FRF row. -/
theorem c4_truncation {α β : Type} [LinearOrderedField α]
    (frf : List (List β)) (freq : List α) (dt : Option α) (lower upper : α)
    (p : ℤ) (s : LscfState α β)
    (hasc : freq.Sorted (· < ·))
    (hshape : ∀ row ∈ frf, row.length = freq.length)
    (hlow : 0 ≤ lower) (hup : lower < upper)
    (h : lscf_init frf freq dt lower upper p = Except.ok s) :
    (s.freq ≠ [] → s.freq.getLastD 0 ≤ upper) ∧
      (∀ row ∈ s.frf, row.length = s.freq.length) := by
  -- Extract the truncated fields from a successful construction.
  have hmain : ∀ (l : List α) (m : List (List β)), l ≠ [] →
      s.freq = l.take (argminAbs upper l) → s.frf = m.map (List.take (argminAbs upper l)) →
      l.Sorted (· < ·) → (∀ row ∈ m, row.length = l.length) →
      (s.freq ≠ [] → s.freq.getLastD 0 ≤ upper) ∧
        (∀ row ∈ s.frf, row.length = s.freq.length) := by
    intro l m hlne hfreq hfrf hsort hsh
    set c := argminAbs upper l with hc
    have hclt : c < l.length := argminAbs_lt_length upper l hlne
    have hlenfreq : s.freq.length = c := by
      rw [hfreq, List.length_take]
      omega
    constructor
    · intro hne
      have hc1 : 1 ≤ c := by
        rcases Nat.eq_zero_or_pos c with h0 | h1
        · exfalso
          apply hne
          rw [hfreq, h0, List.take_zero]
        · exact h1
      -- the last element of the truncation is l[c-1]
      have hcl : c - 1 < l.length := by omega
      have hlast : s.freq.getLastD 0 = l.getD (c - 1) 0 := by
        rw [List.getLastD_eq_getLast?, List.getLast?_eq_getElem?, hlenfreq, hfreq,
          List.getElem?_take, if_pos (by omega), List.getElem?_eq_getElem hcl,
          Option.getD_some, List.getD_eq_getElem l 0 hcl]
      rw [hlast]
      by_contra hgt
      push_neg at hgt
      -- l[c-1] > upper, but l is ascending so l[c] > l[c-1] > upper,
      -- contradicting that index c minimises the distance to upper.
      have hmono : l.getD (c - 1) 0 < l.getD c 0 := by
        have h1 : c - 1 < l.length := by omega
        rw [List.getD_eq_getElem l 0 h1, List.getD_eq_getElem l 0 hclt]
        have := List.pairwise_iff_getElem.mp hsort (c - 1) c h1 hclt (by omega)
        exact this
      have hmin := argminAbs_min upper l (c - 1) (by omega)
      rw [← hc] at hmin
      have e1 : |l.getD (c - 1) 0 - upper| = l.getD (c - 1) 0 - upper :=
        abs_of_pos (by linarith)
      have e2 : |l.getD c 0 - upper| = l.getD c 0 - upper :=
        abs_of_pos (by linarith)
      rw [e1, e2] at hmin
      linarith
    · intro row hrow
      rw [hfrf] at hrow
      obtain ⟨r0, hr0, rfl⟩ := List.mem_map.mp hrow
      rw [List.length_take, hsh r0 hr0, hlenfreq]
      omega
  -- Now reduce the success hypothesis to the shape `hmain` expects.
  unfold lscf_init at h
  split at h
  · exact Except.noConfusion h
  split at h
  · exact Except.noConfusion h
  split at h
  · exact Except.noConfusion h
  rename_i f0 rest
  simp only [] at h
  split at h
  · exact Except.noConfusion h
  split at h
  · -- dt = some d
    injection h with h'
    subst h'
    exact hmain (f0 :: rest) frf (by simp) rfl rfl hasc hshape
  · -- dt = none
    split at h
    · exact Except.noConfusion h
    injection h with h'
    subst h'
    exact hmain (f0 :: rest) frf (by simp) rfl rfl hasc hshape

/-- Witness for C4 at a concrete ascending `ℚ` frequency vector. -/
theorem c4_witness :
    ([1, 2, 3] : List ℚ).Sorted (· < ·) ∧
      (((⟨0, 5/2, [[1]], [1], 2, 1/2⟩ : LscfState ℚ ℤ).freq ≠ [] →
          (⟨0, 5/2, [[1]], [1], 2, 1/2⟩ : LscfState ℚ ℤ).freq.getLastD 0 ≤ 5/2) ∧
        (∀ row ∈ (⟨0, 5/2, [[1]], [1], 2, 1/2⟩ : LscfState ℚ ℤ).frf,
          row.length = (⟨0, 5/2, [[1]], [1], 2, 1/2⟩ : LscfState ℚ ℤ).freq.length)) := by
  refine ⟨by decide, ?_⟩
  exact c4_truncation [[1, 2, 3]] [1, 2, 3] Option.none 0 (5/2) 2 _
    (by decide) (by decide) (by norm_num) (by norm_num) (by decide)

/-! ### Stabilisation-loop bookkeeping lemmas -/

theorem wmod_of_ge_two (nmax n : ℕ) (h2 : 2 ≤ n) (hn : n < nmax) :
    (n + nmax - 1) % nmax = n - 1 := by
  have h1 : n + nmax - 1 = (n - 1) + nmax := by omega
  rw [h1, Nat.add_mod_right, Nat.mod_eq_of_lt (by omega)]

theorem rmod_of_ge_two (nmax n : ℕ) (h2 : 2 ≤ n) (hn : n < nmax) :
    (n + nmax - 2) % nmax = n - 2 := by
  have h1 : n + nmax - 2 = (n - 2) + nmax := by omega
  rw [h1, Nat.add_mod_right, Nat.mod_eq_of_lt (by omega)]

theorem wmod_zero (nmax : ℕ) (h : 1 ≤ nmax) : (0 + nmax - 1) % nmax = nmax - 1 := by
  have h1 : 0 + nmax - 1 = nmax - 1 := by omega
  rw [h1, Nat.mod_eq_of_lt (by omega)]

theorem wcol_one (nmax : ℕ) : wcol nmax 1 = 0 := if_pos rfl

theorem wcol_zero (nmax : ℕ) (h : 1 ≤ nmax) : wcol nmax 0 = nmax - 1 := by
  unfold wcol
  rw [if_neg (by omega)]
  exact wmod_zero nmax h

theorem wcol_of_ge_two (nmax n : ℕ) (h2 : 2 ≤ n) (hn : n < nmax) :
    wcol nmax n = n - 1 := by
  unfold wcol
  rw [if_neg (by omega)]
  exact wmod_of_ge_two nmax n h2 hn

theorem stabStep_preserve {α : Type} [LinearOrderedField α] (nmax : ℕ)
    (e1 e2 : α) (s : StabState α) (n : ℕ) (d : List (α × α)) (r c : ℕ)
    (hc : c ≠ wcol nmax n) :
    (stabStep nmax e1 e2 s n d).fn_temp r c = s.fn_temp r c ∧
      (stabStep nmax e1 e2 s n d).xi_temp r c = s.xi_temp r c ∧
      (stabStep nmax e1 e2 s n d).test_fn r c = s.test_fn r c ∧
      (stabStep nmax e1 e2 s n d).test_xi r c = s.test_xi r c := by
  by_cases hn : n = 1
  · subst hn
    have hc0 : c ≠ 0 := by simpa [wcol] using hc
    simp [stabStep, hc0]
  · have hcw : c ≠ (n + nmax - 1) % nmax := by simpa [wcol, hn] using hc
    simp [stabStep, hn, hcw]

theorem foldl_preserve {α : Type} [LinearOrderedField α] (nmax : ℕ)
    (e1 e2 : α) (data : List (List (α × α))) (c : ℕ) :
    ∀ (L : List ℕ) (s : StabState α), (∀ m ∈ L, c ≠ wcol nmax m) → ∀ r,
      (L.foldl (fun s n => stabStep nmax e1 e2 s n (data.getD n [])) s).fn_temp r c =
          s.fn_temp r c ∧
        (L.foldl (fun s n => stabStep nmax e1 e2 s n (data.getD n [])) s).xi_temp r c =
          s.xi_temp r c ∧
        (L.foldl (fun s n => stabStep nmax e1 e2 s n (data.getD n [])) s).test_fn r c =
          s.test_fn r c ∧
        (L.foldl (fun s n => stabStep nmax e1 e2 s n (data.getD n [])) s).test_xi r c =
          s.test_xi r c := by
  intro L
  induction L with
  | nil => intro s _ r; exact ⟨rfl, rfl, rfl, rfl⟩
  | cons m tail ih =>
    intro s hL r
    rw [List.foldl_cons]
    have h1 := stabStep_preserve nmax e1 e2 s m (data.getD m []) r c
      (hL m (List.mem_cons_self m tail))
    have h2 := ih (stabStep nmax e1 e2 s m (data.getD m []))
      (fun x hx => hL x (List.mem_cons_of_mem m hx)) r
    exact ⟨h2.1.trans h1.1, h2.2.1.trans h1.2.1, h2.2.2.1.trans h1.2.2.1,
      h2.2.2.2.trans h1.2.2.2⟩

/-- The effect of a general-branch iteration (`n ≠ 1`) of the stabilisation
loop on the write column, for a row index within the deduplicated data. -/
theorem stabStep_spec {α : Type} [LinearOrderedField α] (nmax : ℕ)
    (e1 e2 : α) (s : StabState α) (n : ℕ) (d : List (α × α)) (i : ℕ)
    (hn : n ≠ 1)
    (hi : i < (redundant_values (d.map Prod.fst) (d.map Prod.snd) (1 / 1000)).1.length) :
    (stabStep nmax e1 e2 s n d).fn_temp i ((n + nmax - 1) % nmax) =
        (redundant_values (d.map Prod.fst) (d.map Prod.snd) (1 / 1000)).1.getD i 0 ∧
      (stabStep nmax e1 e2 s n d).xi_temp i ((n + nmax - 1) % nmax) =
        (redundant_values (d.map Prod.fst) (d.map Prod.snd) (1 / 1000)).2.getD i 0 ∧
      (stabStep nmax e1 e2 s n d).test_fn i ((n + nmax - 1) % nmax) =
        (List.range (2 * n)).countP (fun j =>
          relMatchB ((redundant_values (d.map Prod.fst) (d.map Prod.snd) (1 / 1000)).1.getD i 0)
            (s.fn_temp j ((n + nmax - 2) % nmax)) e1) ∧
      (stabStep nmax e1 e2 s n d).test_xi i ((n + nmax - 1) % nmax) =
        (List.range (2 * n)).countP (fun j =>
          relMatchB ((redundant_values (d.map Prod.fst) (d.map Prod.snd) (1 / 1000)).2.getD i 0)
            (s.xi_temp j ((n + nmax - 2) % nmax)) e2) := by
  refine ⟨?_, ?_, ?_, ?_⟩ <;>
  · simp only [stabStep]
    rw [if_neg hn]
    dsimp only
    rw [if_pos ⟨rfl, hi⟩]

/-! ### C9: the first iteration writes into the last column -/

/-- C9: the first `stabilisation` iteration has loop index `n = 0`, takes the
general branch rather than the dedicated first-step branch (which runs only
at `n = 1`), and writes the deduplicated lowest-order frequency and damping
values — and zero test counts — into the last column (index `nmax - 1`,
reached through the Python index `n - 1 = -1`); no later iteration touches
that column, so the returned matrices hold lowest-order data there rather
than data for the maximum order. -/
theorem c9_lowest_order_in_last_column {α : Type} [LinearOrderedField α]
    (data : List (List (α × α))) (nmax : ℕ) (e1 e2 : α) (i : ℕ)
    (out : StabState α) (hout : out = stabilisationCore data nmax e1 e2)
    (h2 : 2 ≤ nmax)
    (hi : i < (dedupAt data 0).1.length)
    (hrow : (dedupAt data 0).1.length ≤ 2 * nmax) :
    out.fn_temp i (nmax - 1) = (dedupAt data 0).1.getD i 0 ∧
      out.xi_temp i (nmax - 1) = (dedupAt data 0).2.getD i 0 ∧
      out.test_fn i (nmax - 1) = 0 ∧
      out.test_xi i (nmax - 1) = 0 := by
  subst hout
  unfold stabilisationCore
  obtain ⟨k, hk⟩ : ∃ k, nmax = k + 1 := ⟨nmax - 1, by omega⟩
  subst hk
  rw [List.range_succ_eq_map, List.foldl_cons]
  have hside : ∀ m ∈ (List.range k).map Nat.succ, k + 1 - 1 ≠ wcol (k + 1) m := by
    intro m hm
    obtain ⟨j, hj, rfl⟩ := List.mem_map.mp hm
    have hjk : j < k := List.mem_range.mp hj
    by_cases hj1 : j = 0
    · subst hj1
      rw [show Nat.succ 0 = 1 from rfl, wcol_one]
      omega
    · rw [wcol_of_ge_two (k + 1) j.succ (by omega) (by omega)]
      omega
  have hpres := foldl_preserve (k + 1) e1 e2 data (k + 1 - 1)
    ((List.range k).map Nat.succ)
    (stabStep (k + 1) e1 e2 initStab 0 (data.getD 0 [])) hside i
  have hspec := stabStep_spec (k + 1) e1 e2 initStab 0 (data.getD 0 []) i
    (by omega) hi
  have hwc : (0 + (k + 1) - 1) % (k + 1) = k + 1 - 1 := wmod_zero (k + 1) (by omega)
  rw [hwc] at hspec
  refine ⟨?_, ?_, ?_, ?_⟩
  · rw [hpres.1, hspec.1]; rfl
  · rw [hpres.2.1, hspec.2.1]; rfl
  · rw [hpres.2.2.1, hspec.2.2.1]
    simp
  · rw [hpres.2.2.2, hspec.2.2.2]
    simp

/-- Witness for C9 at a concrete two-order input over `ℚ`: the final column
of the returned matrices holds the order-0 data. -/
theorem c9_witness :
    0 < (dedupAt [[((100 : ℚ), 1/100)], [(200, 1/50)]] 0).1.length ∧
      (stabilisationCore [[((100 : ℚ), 1/100)], [(200, 1/50)]] 2 (1/1000) (5/100)).fn_temp 0 1 = 100 ∧
      (stabilisationCore [[((100 : ℚ), 1/100)], [(200, 1/50)]] 2 (1/1000) (5/100)).test_fn 0 1 = 0 := by
  have h := c9_lowest_order_in_last_column [[((100 : ℚ), 1/100)], [(200, 1/50)]]
    2 (1/1000) (5/100) 0 _ rfl (by omega) (by decide) (by decide)
  exact ⟨by decide, h.1.trans (by decide), h.2.2.1⟩

/-! ### C3: stability test counts against the stored column `n - 2` -/

/-- C3: at a general iteration `2 ≤ n < nmax`, the stability count written
for surviving pole `i` into `test_fn[i, n-1]` equals the number of matches,
within relative tolerance `err_fn` and over the first `2·n` rows, of its
frequency against the stored column `n - 2`; hence the count is positive
exactly when some entry of that window matches, and it is zero when no entry
of the whole stored column matches.  The analogous statements hold for
damping under `err_xi`. -/
theorem c3_test_counts {α : Type} [LinearOrderedField α]
    (data : List (List (α × α))) (nmax n : ℕ) (e1 e2 : α) (i : ℕ)
    (out : StabState α) (hout : out = stabilisationCore data nmax e1 e2)
    (hn2 : 2 ≤ n) (hnm : n < nmax)
    (hi : i < (dedupAt data n).1.length)
    (hrow : (dedupAt data n).1.length ≤ 2 * nmax) :
    (out.test_fn i (n - 1) =
        (List.range (2 * n)).countP (fun j =>
          relMatchB ((dedupAt data n).1.getD i 0) (out.fn_temp j (n - 2)) e1) ∧
      ((∃ j < 2 * n,
          relMatchB ((dedupAt data n).1.getD i 0) (out.fn_temp j (n - 2)) e1 = true) ↔
        0 < out.test_fn i (n - 1)) ∧
      ((∀ j < 2 * nmax,
          relMatchB ((dedupAt data n).1.getD i 0) (out.fn_temp j (n - 2)) e1 = false) →
        out.test_fn i (n - 1) = 0)) ∧
    (out.test_xi i (n - 1) =
        (List.range (2 * n)).countP (fun j =>
          relMatchB ((dedupAt data n).2.getD i 0) (out.xi_temp j (n - 2)) e2) ∧
      ((∃ j < 2 * n,
          relMatchB ((dedupAt data n).2.getD i 0) (out.xi_temp j (n - 2)) e2 = true) ↔
        0 < out.test_xi i (n - 1)) ∧
      ((∀ j < 2 * nmax,
          relMatchB ((dedupAt data n).2.getD i 0) (out.xi_temp j (n - 2)) e2 = false) →
        out.test_xi i (n - 1) = 0)) := by
  subst hout
  unfold stabilisationCore
  obtain ⟨m, hm⟩ : ∃ m, nmax = (n + 1) + m := ⟨nmax - (n + 1), by omega⟩
  subst hm
  rw [List.range_add, List.range_succ, List.foldl_append, List.foldl_append,
    List.foldl_cons, List.foldl_nil]
  set sN : StabState α := (List.range n).foldl
    (fun s q => stabStep (n + 1 + m) e1 e2 s q (data.getD q [])) initStab with hsN
  have hsideT : ∀ q ∈ (List.range m).map (fun x => (n + 1) + x),
      n - 1 ≠ wcol (n + 1 + m) q := by
    intro q hq
    obtain ⟨x, hx, rfl⟩ := List.mem_map.mp hq
    have hxm : x < m := List.mem_range.mp hx
    rw [wcol_of_ge_two (n + 1 + m) (n + 1 + x) (by omega) (by omega)]
    omega
  have hsideC : ∀ q ∈ (List.range m).map (fun x => (n + 1) + x),
      n - 2 ≠ wcol (n + 1 + m) q := by
    intro q hq
    obtain ⟨x, hx, rfl⟩ := List.mem_map.mp hq
    have hxm : x < m := List.mem_range.mp hx
    rw [wcol_of_ge_two (n + 1 + m) (n + 1 + x) (by omega) (by omega)]
    omega
  have hpresT := foldl_preserve (n + 1 + m) e1 e2 data (n - 1)
    ((List.range m).map (fun x => (n + 1) + x))
    (stabStep (n + 1 + m) e1 e2 sN n (data.getD n [])) hsideT i
  have hpresC : ∀ j,
      (((List.range m).map (fun x => (n + 1) + x)).foldl
          (fun s q => stabStep (n + 1 + m) e1 e2 s q (data.getD q []))
          (stabStep (n + 1 + m) e1 e2 sN n (data.getD n []))).fn_temp j (n - 2) =
          sN.fn_temp j (n - 2) ∧
        (((List.range m).map (fun x => (n + 1) + x)).foldl
            (fun s q => stabStep (n + 1 + m) e1 e2 s q (data.getD q []))
            (stabStep (n + 1 + m) e1 e2 sN n (data.getD n []))).xi_temp j (n - 2) =
          sN.xi_temp j (n - 2) := by
    intro j
    have ha := foldl_preserve (n + 1 + m) e1 e2 data (n - 2)
      ((List.range m).map (fun x => (n + 1) + x))
      (stabStep (n + 1 + m) e1 e2 sN n (data.getD n [])) hsideC j
    have hb := stabStep_preserve (n + 1 + m) e1 e2 sN n (data.getD n []) j (n - 2)
      (by rw [wcol_of_ge_two (n + 1 + m) n hn2 (by omega)]; omega)
    exact ⟨ha.1.trans hb.1, ha.2.1.trans hb.2.1⟩
  have hspec := stabStep_spec (n + 1 + m) e1 e2 sN n (data.getD n []) i
    (by omega) hi
  rw [wmod_of_ge_two (n + 1 + m) n hn2 (by omega),
    rmod_of_ge_two (n + 1 + m) n hn2 (by omega)] at hspec
  have keyFn : (((List.range m).map (fun x => (n + 1) + x)).foldl
      (fun s q => stabStep (n + 1 + m) e1 e2 s q (data.getD q []))
      (stabStep (n + 1 + m) e1 e2 sN n (data.getD n []))).test_fn i (n - 1) =
      (List.range (2 * n)).countP (fun j =>
        relMatchB ((dedupAt data n).1.getD i 0)
          ((((List.range m).map (fun x => (n + 1) + x)).foldl
            (fun s q => stabStep (n + 1 + m) e1 e2 s q (data.getD q []))
            (stabStep (n + 1 + m) e1 e2 sN n (data.getD n []))).fn_temp j (n - 2)) e1) := by
    rw [hpresT.2.2.1, hspec.2.2.1]
    exact List.countP_congr (fun j _ => by rw [(hpresC j).1]; exact Iff.rfl)
  have keyXi : (((List.range m).map (fun x => (n + 1) + x)).foldl
      (fun s q => stabStep (n + 1 + m) e1 e2 s q (data.getD q []))
      (stabStep (n + 1 + m) e1 e2 sN n (data.getD n []))).test_xi i (n - 1) =
      (List.range (2 * n)).countP (fun j =>
        relMatchB ((dedupAt data n).2.getD i 0)
          ((((List.range m).map (fun x => (n + 1) + x)).foldl
            (fun s q => stabStep (n + 1 + m) e1 e2 s q (data.getD q []))
            (stabStep (n + 1 + m) e1 e2 sN n (data.getD n []))).xi_temp j (n - 2)) e2) := by
    rw [hpresT.2.2.2, hspec.2.2.2]
    exact List.countP_congr (fun j _ => by rw [(hpresC j).2]; exact Iff.rfl)
  refine ⟨⟨keyFn, ?_, ?_⟩, keyXi, ?_, ?_⟩
  · rw [keyFn]
    constructor
    · rintro ⟨j, hj, hp⟩
      exact List.countP_pos.mpr ⟨j, List.mem_range.mpr hj, hp⟩
    · intro h
      obtain ⟨j, hj, hp⟩ := List.countP_pos.mp h
      exact ⟨j, List.mem_range.mp hj, hp⟩
  · intro hall
    rw [keyFn]
    refine List.countP_eq_zero.mpr ?_
    intro a ha
    rw [hall a (by have := List.mem_range.mp ha; omega)]
    simp
  · rw [keyXi]
    constructor
    · rintro ⟨j, hj, hp⟩
      exact List.countP_pos.mpr ⟨j, List.mem_range.mpr hj, hp⟩
    · intro h
      obtain ⟨j, hj, hp⟩ := List.countP_pos.mp h
      exact ⟨j, List.mem_range.mp hj, hp⟩
  · intro hall
    rw [keyXi]
    refine List.countP_eq_zero.mpr ?_
    intro a ha
    rw [hall a (by have := List.mem_range.mp ha; omega)]
    simp

/-- Witness for C3: three orders of a single surviving pole at 10 Hz over
`ℚ`; at `n = 2` the frequency matches the stored column and the count is 1. -/
theorem c3_witness :
    0 < (dedupAt [[((10 : ℚ), 1)], [(10, 1)], [(10, 1)]] 2).1.length ∧
      (stabilisationCore [[((10 : ℚ), 1)], [(10, 1)], [(10, 1)]] 3 (1/10) (1/10)).test_fn 0 1 = 1 := by
  have h := c3_test_counts [[((10 : ℚ), 1)], [(10, 1)], [(10, 1)]] 3 2 (1/10) (1/10) 0
    _ rfl (by omega) (by omega) (by decide) (by decide)
  exact ⟨by decide, h.1.1.trans (by decide)⟩

/-! ### C5: deduplication of near-equal frequencies -/

theorem survives_iff {α : Type} [LinearOrderedField α] (omega : List α)
    (prec : α) (j : ℕ) :
    survives omega prec j = true ↔
      ∀ i, j < i → i < omega.length →
        ¬(|omega.getD i 0 - omega.getD j 0| < prec) := by
  unfold survives
  rw [List.all_eq_true]
  constructor
  · intro h i hji hi habs
    have h2 := h i (List.mem_range.mpr hi)
    rw [Bool.not_eq_true'] at h2
    rcases Bool.and_eq_false_iff.mp h2 with hc | hc
    · exact absurd hji (of_decide_eq_false hc)
    · exact absurd habs (of_decide_eq_false hc)
  · intro h i hi
    rw [Bool.not_eq_true', Bool.and_eq_false_iff]
    by_cases hji : j < i
    · exact Or.inr (decide_eq_false (h i hji (List.mem_range.mp hi)))
    · exact Or.inl (decide_eq_false hji)

/-- C5: if every pair of entries of the frequency vector differs by at least
`prec`, `redundant_values` returns its input unchanged; if exactly one pair
of entries is closer than `prec` (all other pairs being at least `prec`
apart), the deduplicated output has exactly one fewer entry than the
input. -/
theorem c5_redundant_values {α : Type} [LinearOrderedField α]
    (omega xi : List α) (prec : α) (hlen : xi.length = omega.length) :
    ((∀ j i, j < i → i < omega.length →
        ¬(|omega.getD i 0 - omega.getD j 0| < prec)) →
      redundant_values omega xi prec = (omega, xi)) ∧
    (∀ j0 i0, j0 < i0 → i0 < omega.length →
      |omega.getD i0 0 - omega.getD j0 0| < prec →
      (∀ j i, j < i → i < omega.length → ¬(j = j0 ∧ i = i0) →
        ¬(|omega.getD i 0 - omega.getD j 0| < prec)) →
      (redundant_values omega xi prec).1.length + 1 = omega.length ∧
        (redundant_values omega xi prec).2.length + 1 = omega.length) := by
  constructor
  · intro hall
    simp only [redundant_values]
    have hfilter : (List.range omega.length).filter (fun j => survives omega prec j) =
        List.range omega.length :=
      List.filter_eq_self.mpr
        (fun j _ => (survives_iff omega prec j).mpr (fun i hji hi => hall j i hji hi))
    rw [hfilter]
    simp only [Prod.mk.injEq]
    refine ⟨map_getD_range 0 omega, ?_⟩
    rw [← hlen]
    exact map_getD_range 0 xi
  · intro j0 i0 hji hi0 hclose hothers
    simp only [redundant_values]
    have hsurv : ∀ j, j < omega.length →
        (survives omega prec j = true ↔ j ≠ j0) := by
      intro j _
      rw [survives_iff]
      constructor
      · intro h hjj0
        subst hjj0
        exact h i0 hji hi0 hclose
      · intro hne i hji' hi'
        exact hothers j i hji' hi' (fun hpair => hne hpair.1)
    have hsplit : List.range omega.length =
        (List.range j0 ++ [j0]) ++
          (List.range (omega.length - (j0 + 1))).map (fun x => (j0 + 1) + x) := by
      have h1 : omega.length = (j0 + 1) + (omega.length - (j0 + 1)) := by omega
      calc List.range omega.length
          = List.range ((j0 + 1) + (omega.length - (j0 + 1))) := by rw [← h1]
        _ = List.range (j0 + 1) ++
              (List.range (omega.length - (j0 + 1))).map (fun x => (j0 + 1) + x) :=
            List.range_add _ _
        _ = (List.range j0 ++ [j0]) ++
              (List.range (omega.length - (j0 + 1))).map (fun x => (j0 + 1) + x) := by
            rw [List.range_succ]
    have hpre : (List.range j0).filter (fun j => survives omega prec j) =
        List.range j0 :=
      List.filter_eq_self.mpr (fun j hj =>
        (hsurv j (by have := List.mem_range.mp hj; omega)).mpr
          (by have := List.mem_range.mp hj; omega))
    have hj0false : survives omega prec j0 = false := by
      cases hs : survives omega prec j0
      · rfl
      · exact absurd ((hsurv j0 (by omega)).mp hs) (by simp)
    have hmid : [j0].filter (fun j => survives omega prec j) = [] := by
      simp [List.filter_cons, hj0false]
    have hsuf : ((List.range (omega.length - (j0 + 1))).map
        (fun x => (j0 + 1) + x)).filter (fun j => survives omega prec j) =
        (List.range (omega.length - (j0 + 1))).map (fun x => (j0 + 1) + x) :=
      List.filter_eq_self.mpr (fun j hj => by
        obtain ⟨x, hx, rfl⟩ := List.mem_map.mp hj
        have hxm := List.mem_range.mp hx
        exact (hsurv _ (by omega)).mpr (by omega))
    constructor
    · rw [hsplit, List.filter_append, List.filter_append, hpre, hmid, hsuf]
      simp only [List.length_map, List.length_append, List.length_range,
        List.length_nil]
      omega
    · rw [hsplit, List.filter_append, List.filter_append, hpre, hmid, hsuf]
      simp only [List.length_map, List.length_append, List.length_range,
        List.length_nil]
      omega

/-- Witness for C5 over `ℚ`: the all-far case on `[0, 10]` and the
one-close-pair case on `[1, 2, 2]` with `prec = 1/2`. -/
theorem c5_witness :
    redundant_values ([0, 10] : List ℚ) [5, 5] (1/2) = ([0, 10], [5, 5]) ∧
      (redundant_values ([1, 2, 2] : List ℚ) [0, 0, 0] (1/2)).1.length + 1 = 3 := by
  constructor
  · refine (c5_redundant_values [0, 10] [5, 5] (1/2) rfl).1 ?_
    intro j i hji hi
    simp only [List.length_cons, List.length_nil] at hi
    interval_cases i <;> interval_cases j <;> decide
  · refine ((c5_redundant_values [1, 2, 2] [0, 0, 0] (1/2) rfl).2 1 2
      (by omega) (by norm_num) (by decide) ?_).1
    intro j i hji hi hne
    simp only [List.length_cons, List.length_nil] at hi
    interval_cases i <;> interval_cases j <;>
      first
        | decide
        | exact absurd (by decide) hne

/-! ### C1: lsfd dispatch and result shapes (corrected) -/

/-- Counterexample to C1 as stated: at a concrete input with one selected
pole, `FRF_ind=None` returns the modal-constant matrix `self.A` with shape
`(1, 1)` — that is, `(numOutputs, numPoles)` — not `(1, 2·1+4)`: the claimed
`2×numPoles+4` is the column count of the internal real solution block
`A_LSFD`, while the returned constants keep only `numPoles` complex
columns. -/
theorem c1_counterexample :
    constantsShapeOf (lsfd [[1]] [2] 0 1 [[3]] [(0, 0)] PyVal.none
        Option.none Option.none true true true) = some (1, 1) ∧
      ((1 : ℕ), (1 : ℕ)) ≠ ((1 : ℕ), 2 * 1 + 4) := by
  exact ⟨rfl, by decide⟩

/-- C1 as amended: for a non-empty selected pole set, `FRF_ind=None` returns
only the modal constants shaped `(numOutputs, numPoles)`; `FRF_ind='all'`
returns a complex matrix shaped `(numOutputs, numFrequencyBins)` together
with the same modal constants; and any string other than `'all'`, or a
non-integer value such as a float, raises the invalid-selector error. -/
theorem c1_lsfd_dispatch (frf : List (List ℂ)) (freq : List ℝ)
    (lower upper : ℝ) (ap : List (List ℂ)) (pind : List (ℕ × ℕ))
    (fl fu : Option ℝ) (cm ur lr : Bool) (hne : 0 < pind.length) :
    (∃ A, lsfd frf freq lower upper ap pind PyVal.none fl fu cm ur lr =
          Except.ok (LsfdOut.A_only A) ∧
        A.length = frf.length ∧ (∀ row ∈ A, row.length = pind.length) ∧
        (∃ H, lsfd frf freq lower upper ap pind (PyVal.str ("all")) fl fu cm ur lr =
            Except.ok (LsfdOut.pair_all H A) ∧
          H.length = frf.length ∧ ∀ row ∈ H, row.length = freq.length)) ∧
    (∀ s2 : String, s2 ≠ "all" →
      lsfd frf freq lower upper ap pind (PyVal.str s2) fl fu cm ur lr =
        Except.error ("FRF_ind must be None, \"all\" or int")) ∧
    (∀ x : ℝ, lsfd frf freq lower upper ap pind (PyVal.float x) fl fu cm ur lr =
      Except.error ("FRF_ind must be None, \"all\" or int")) := by
  refine ⟨⟨_, rfl, ?_, ?_, ⟨_, rfl, ?_, ?_⟩⟩, ?_, ?_⟩
  · simp [List.length_map]
  · intro row hrow
    simp only [List.mem_map] at hrow
    obtain ⟨r, -, rfl⟩ := hrow
    simp [List.length_map, List.length_range]
  · simp [List.length_map, List.length_range]
  · intro row hrow
    simp only [List.mem_map] at hrow
    obtain ⟨r, -, rfl⟩ := hrow
    simp [FRF_reconstruct, List.length_map]
  · intro s2 hs2
    simp only [lsfd]
    rw [if_neg hs2]
  · intro x
    rfl

/-- Witness for the amended C1: a one-output, one-pole instance, with the
invalid string selector rejected. -/
theorem c1_witness :
    0 < [((0 : ℕ), (0 : ℕ))].length ∧
      lsfd [[1]] [2] 0 1 [[3]] [(0, 0)] (PyVal.str ("foo"))
          Option.none Option.none true true true =
        Except.error ("FRF_ind must be None, \"all\" or int") := by
  refine ⟨by decide, ?_⟩
  exact (c1_lsfd_dispatch [[1]] [2] 0 1 [[3]] [(0, 0)]
    Option.none Option.none true true true (by decide)).2.1 "foo" (by decide)

/-! ### C10: boolean selectors pass the integer check -/

/-- C10: a boolean `FRF_ind` does not raise the invalid-selector error:
because Python booleans satisfy `isinstance(FRF_ind, int)`, `True` is
treated as output index 1 and `False` as output index 0, and a single
reconstructed row plus the modal constants is returned. -/
theorem c10_bool_selector (frf : List (List ℂ)) (freq : List ℝ)
    (lower upper : ℝ) (ap : List (List ℂ)) (pind : List (ℕ × ℕ))
    (fl fu : Option ℝ) (cm ur lr : Bool) (b : Bool)
    (hrows : 2 ≤ frf.length) :
    lsfd frf freq lower upper ap pind (PyVal.bool true) fl fu cm ur lr =
        lsfd frf freq lower upper ap pind (PyVal.int 1) fl fu cm ur lr ∧
      lsfd frf freq lower upper ap pind (PyVal.bool false) fl fu cm ur lr =
        lsfd frf freq lower upper ap pind (PyVal.int 0) fl fu cm ur lr ∧
      ∃ row A, lsfd frf freq lower upper ap pind (PyVal.bool b) fl fu cm ur lr =
        Except.ok (LsfdOut.pair_one row A) := by
  refine ⟨rfl, rfl, ?_⟩
  cases b
  · exact ⟨_, _, rfl⟩
  · exact ⟨_, _, rfl⟩

/-- Witness for C10: with two output rows, the boolean selectors dispatch to
indices 1 and 0. -/
theorem c10_witness :
    2 ≤ ([[1], [2]] : List (List ℂ)).length ∧
      lsfd [[1], [2]] [2] 0 1 [[3]] [(0, 0)] (PyVal.bool true)
          Option.none Option.none true true true =
        lsfd [[1], [2]] [2] 0 1 [[3]] [(0, 0)] (PyVal.int 1)
          Option.none Option.none true true true := by
  refine ⟨by decide, ?_⟩
  exact (c10_bool_selector [[1], [2]] [2] 0 1 [[3]] [(0, 0)]
    Option.none Option.none true true true true (by decide)).1

end PyEMA
